import Mathlib

/-!
Verification of the refresh pipeline in `src/app/api/refresh/route.ts`
(and its untyped variant): fetch an organization's repositories, the open
pull requests of each repository, the reviews of each non-draft pull
request; aggregate one record per non-draft pull request with an approval
count; sort ascending by approvals; merge-upsert the records and a
singleton metadata document into a document store.

The upstream HTTP API is modelled as an oracle (`Upstream`) mapping each
request shape to either a payload or a transport/parse error; the handler
is a pure function of the oracle, the configuration, the current time and
the prior store state, returning the HTTP response, the new store state,
the list of requests issued, and the record sequence it produced.
-/

namespace PrReview

/-- A review object from `GET /repos/{org}/{repo}/pulls/{n}/reviews`:
only its `state` field is consumed (interface `GitHubReview`). -/
structure GitHubReview where
  state : String
  deriving DecidableEq

/-- The `user` object of a pull request (interface `GitHubUser`). -/
structure GitHubUser where
  login : String
  deriving DecidableEq

/-- A pull request object from `GET /repos/{org}/{repo}/pulls`
(interface `GitHubPullRequest`). -/
structure GitHubPullRequest where
  number : Nat
  title : String
  draft : Bool
  html_url : String
  updated_at : String
  user : GitHubUser
  deriving DecidableEq

/-- A repository object from `GET /orgs/{org}/repos`: only `name` is used. -/
structure Repo where
  name : String
  deriving DecidableEq

/-- The normalized record pushed onto `allPRs` (interface `PR`).
Every record the handler constructs populates all fields. -/
structure PR where
  id : String
  title : String
  repo : String
  author : String
  url : String
  updated_at : String
  approvals : Nat
  deriving DecidableEq

/-- The shape of an outbound request to the source API, identified by its
URL: the repository list, a repository's open-pulls list, or a pull
request's review list. -/
inductive Req where
  | repos : Req
  | pulls (repoName : String) : Req
  | reviews (repoName : String) (prNumber : Nat) : Req
  deriving DecidableEq

/-- Oracle for the source API: what each fetch would return during this
refresh. `Except.error` covers transport failure and malformed payloads
(both throw in the handler). -/
structure Upstream where
  repos : Except String (List Repo)
  pulls : String → Except String (List GitHubPullRequest)
  reviews : String → Nat → Except String (List GitHubReview)

/-- `reviews.filter((r) => r.state === "APPROVED").length`. -/
def approvalCount (reviews : List GitHubReview) : Nat :=
  (reviews.filter (fun r => r.state == "APPROVED")).length

/-- The record key: the template literal `${repo.name}-${pr.number}`. -/
def mkId (repoName : String) (number : Nat) : String :=
  repoName ++ "-" ++ toString number

/-- The object pushed onto `allPRs` for one non-draft pull request. -/
def mkRecord (org repoName : String) (pr : GitHubPullRequest) (approvals : Nat) : PR :=
  { id := mkId repoName pr.number
    title := pr.title
    repo := org ++ "/" ++ repoName
    author := pr.user.login
    url := pr.html_url
    updated_at := pr.updated_at
    approvals := approvals }

/-- The inner loop over one repository's non-draft pull requests: fetch
each pull request's reviews, compute the approval count, and append the
normalized record; the first failed fetch aborts. Returns the requests
issued and either the records or the error. -/
def processPRs (up : Upstream) (org repoName : String) :
    List GitHubPullRequest → List Req × Except String (List PR)
  | [] => ([], .ok [])
  | pr :: rest =>
    match up.reviews repoName pr.number with
    | .error e => ([.reviews repoName pr.number], .error e)
    | .ok reviews =>
      match processPRs up org repoName rest with
      | (log, res) =>
        (.reviews repoName pr.number :: log,
          res.map (fun recs => mkRecord org repoName pr (approvalCount reviews) :: recs))

/-- The outer loop over the repositories: fetch each repository's open
pull requests (`continue` on an empty list), filter out drafts before any
review fetch, and process the rest; the first failed fetch aborts. -/
def processRepos (up : Upstream) (org : String) :
    List Repo → List Req × Except String (List PR)
  | [] => ([], .ok [])
  | repo :: rest =>
    match up.pulls repo.name with
    | .error e => ([.pulls repo.name], .error e)
    | .ok pulls =>
      if pulls.isEmpty then
        match processRepos up org rest with
        | (log, res) => (.pulls repo.name :: log, res)
      else
        match processPRs up org repo.name (pulls.filter (fun p => !p.draft)) with
        | (log1, .error e) => (.pulls repo.name :: log1, .error e)
        | (log1, .ok recs) =>
          match processRepos up org rest with
          | (log2, res2) =>
            (.pulls repo.name :: log1 ++ log2,
              res2.map (fun recs2 => recs ++ recs2))

/-- The whole fetch/aggregate phase of the handler (steps 1 and 2): the
repository list fetch followed by the nested loops. The second component
is the unsorted `allPRs` in encounter order (repository list order, then
pull-request list order within a repository). -/
def fetchAll (up : Upstream) (org : String) : List Req × Except String (List PR) :=
  match up.repos with
  | .error e => ([.repos], .error e)
  | .ok repos =>
    match processRepos up org repos with
    | (log, res) => (.repos :: log, res)

/-- JavaScript `n || 0` on a number known to be a non-negative integer:
`0` is falsy, so `0 || 0 = 0` and otherwise the number itself. -/
def jsOrZero (n : Nat) : Nat := if n = 0 then 0 else n

/-- Stable insertion step for an ascending sort by `key`: the new element
goes before the first element whose key is not smaller, so an element
earlier in the input stays before later elements with an equal key. -/
def insertByKey (key : PR → Nat) (x : PR) : List PR → List PR
  | [] => [x]
  | y :: ys => if key y < key x then y :: insertByKey key x ys else x :: y :: ys

/-- Stable ascending sort by `key`, modelling `Array.prototype.sort` with
a numeric-difference comparator (ES2019 requires the built-in sort to be
stable). -/
def sortByKey (key : PR → Nat) : List PR → List PR
  | [] => []
  | x :: xs => insertByKey key x (sortByKey key xs)

/-- The typed route's step 3: `allPRs.sort((a, b) => (a.approvals || 0) - (b.approvals || 0))`. -/
def sortRecords (l : List PR) : List PR :=
  sortByKey (fun r => jsOrZero r.approvals) l

/-- The untyped variant's step 3: `allPRs.sort((a, b) => a.approvals - b.approvals)`. -/
def sortRecordsUntyped (l : List PR) : List PR :=
  sortByKey (fun r => r.approvals) l

/-- A Firestore field value as used by this app: a string or a number. -/
inductive FieldVal where
  | str (s : String)
  | nat (n : Nat)
  deriving DecidableEq

/-- A stored document: a map from field name to optional value. -/
abbrev Doc := String → Option FieldVal

/-- A collection: a map from document key to optional document. -/
abbrev Collection := String → Option Doc

/-- The document-store state the handler touches: the `prs` collection
and the `metadata` collection. -/
structure Store where
  prs : Collection
  metadata : Collection

/-- Modelled from the spec: Firestore `setDoc(ref, data, { merge: true })`
on one document — fields present in `data` overwrite the matching fields
of any existing document under the key; fields absent from `data` but
present on the old document survive (an overwrite of a subset of
fields, not a replacement). -/
def mergeDoc (old : Option Doc) (d : Doc) : Doc :=
  fun f =>
    match d f with
    | some v => some v
    | none =>
      match old with
      | some o => o f
      | none => none

/-- Modelled from the spec: the collection after one merge-upsert. -/
def setDocMerge (col : Collection) (key : String) (d : Doc) : Collection :=
  fun k => if k = key then some (mergeDoc (col key) d) else col k

/-- The field map of a `PR` record as written by `setDoc`: all seven
fields are present. -/
def recordDoc (r : PR) : Doc := fun f =>
  if f = "id" then some (.str r.id)
  else if f = "title" then some (.str r.title)
  else if f = "repo" then some (.str r.repo)
  else if f = "author" then some (.str r.author)
  else if f = "url" then some (.str r.url)
  else if f = "updated_at" then some (.str r.updated_at)
  else if f = "approvals" then some (.nat r.approvals)
  else none

/-- The write operations issued by step 4:
`allPRs.map((pr) => setDoc(doc(colRef, pr.id), pr, { merge: true }))` —
one `(key, fields)` pair per record, keyed by `pr.id`. -/
def writeOps (recs : List PR) : List (String × Doc) :=
  recs.map (fun r => (r.id, recordDoc r))

/-- The `prs` collection after all record upserts have settled. The
writes are issued concurrently via `Promise.all`, but they target the
documents given by `writeOps`, applied here in list order. -/
def upsertRecords (col : Collection) (recs : List PR) : Collection :=
  (writeOps recs).foldl (fun c p => setDocMerge c p.1 p.2) col

/-- The metadata payload of step 5:
`{ lastRefresh: now, lastRefreshCount: count }`. -/
def metadataDoc (now : String) (count : Nat) : Doc := fun f =>
  if f = "lastRefresh" then some (.str now)
  else if f = "lastRefreshCount" then some (.nat count)
  else none

/-- The HTTP response: `{ success: true, count }` with status 200, or
`{ success: false, error }` with status 500. -/
structure Resp where
  success : Bool
  count : Option Nat
  error : Option String
  status : Nat
  deriving DecidableEq

/-- Everything observable about one run of the handler: the response, the
resulting store state, the requests issued in order, and the (sorted)
record sequence it produced and persisted (empty when the run failed). -/
structure RunResult where
  resp : Resp
  store : Store
  log : List Req
  records : List PR

/-- The handler body, parametric in the sort used by step 3 (the only
point where the typed route and the untyped variant differ textually).
A fetch failure is caught and turned into a 500 response with no write
issued; otherwise the records are sorted, upserted, and the metadata
document is merge-written last. -/
def runWith (sort : List PR → List PR) (up : Upstream) (org now : String)
    (store : Store) : RunResult :=
  match fetchAll up org with
  | (log, .error e) => ⟨⟨false, none, some e, 500⟩, store, log, []⟩
  | (log, .ok recs) =>
    ⟨⟨true, some (sort recs).length, none, 200⟩,
      ⟨upsertRecords store.prs (sort recs),
        setDocMerge store.metadata "system" (metadataDoc now (sort recs).length)⟩,
      log, sort recs⟩

/-- The typed route's `GET` handler (`src/app/api/refresh/route.ts`). -/
def GET (up : Upstream) (org now : String) (store : Store) : RunResult :=
  runWith sortRecords up org now store

/-- The untyped variant's `GET` handler (`src/unnamed/part_000`). -/
def GETUntyped (up : Upstream) (org now : String) (store : Store) : RunResult :=
  runWith sortRecordsUntyped up org now store

/-- The `lastRefreshCount` field of the singleton metadata document. -/
def metaCount (s : Store) : Option FieldVal :=
  match s.metadata "system" with
  | some d => d "lastRefreshCount"
  | none => none

/-- A field of a possibly missing document. -/
def getF (od : Option Doc) (f : String) : Option FieldVal :=
  match od with
  | some d => d f
  | none => none

/-- One settled merge-upsert, as a fold step over a single key's
possibly-missing document. -/
def mergeStep (od : Option Doc) (r : PR) : Option Doc :=
  some (mergeDoc od (recordDoc r))

/-- Override-or-keep at a single field of a single key. -/
def overrideF (f : String) (acc : Option FieldVal) (r : PR) : Option FieldVal :=
  match recordDoc r f with
  | some v => some v
  | none => acc

/-- The decimal digit characters of `n`, most significant first. -/
def natDigits (n : Nat) : List Char :=
  if _h : n < 10 then [Nat.digitChar n]
  else natDigits (n / 10) ++ [Nat.digitChar (n % 10)]
decreasing_by exact Nat.div_lt_self (by omega) (by omega)

/-- The numeric value of a digit-character list, most significant first. -/
def digitsVal (l : List Char) : Nat :=
  l.foldl (fun acc c => acc * 10 + (c.toNat - 48)) 0

/-! ### Concrete scenario fixtures -/

/-- A store with both collections empty. -/
def emptyStore : Store := ⟨fun _ => none, fun _ => none⟩

/-- An open, non-draft pull request, number 1. -/
def prOpen : GitHubPullRequest :=
  ⟨1, "Add feature", false, "https://example.test/pr/1",
    "2024-01-01T00:00:00Z", ⟨"alice"⟩⟩

/-- A draft pull request, number 2. -/
def prDraft : GitHubPullRequest :=
  ⟨2, "Draft work", true, "https://example.test/pr/2",
    "2024-01-02T00:00:00Z", ⟨"bob"⟩⟩

/-- Scenario D upstream: one repository, one open non-draft pull request
whose review states are APPROVED, COMMENTED, APPROVED. -/
def upD : Upstream where
  repos := .ok [⟨"alpha"⟩]
  pulls := fun rn => if rn = "alpha" then .ok [prOpen] else .ok []
  reviews := fun rn n =>
    if rn = "alpha" ∧ n = 1 then
      .ok [⟨"APPROVED"⟩, ⟨"COMMENTED"⟩, ⟨"APPROVED"⟩]
    else .ok []

/-- Scenario C upstream: one repository whose pull list holds a draft
pull request and an open one. -/
def upC : Upstream where
  repos := .ok [⟨"alpha"⟩]
  pulls := fun rn => if rn = "alpha" then .ok [prDraft, prOpen] else .ok []
  reviews := fun _ _ => .ok []

/-- Scenario E upstream: the repository-list call fails. -/
def upE : Upstream where
  repos := .error "fetch failed"
  pulls := fun _ => .ok []
  reviews := fun _ _ => .ok []

/-- Scenario A upstream: the organization has zero repositories. -/
def upA : Upstream where
  repos := .ok []
  pulls := fun _ => .ok []
  reviews := fun _ _ => .ok []

/-- A prior document with a stale `title` and an extra field outside the
record shape, to exercise merge semantics. -/
def oldDoc : Doc := fun f =>
  if f = "title" then some (.str "Old title")
  else if f = "extra" then some (.str "kept")
  else none

/-- A prior `prs` collection holding `oldDoc` under key `alpha-1`. -/
def colOld : Collection := fun k => if k = "alpha-1" then some oldDoc else none


/-! ### Decimal rendering of a pull-request number

`mkId` renders the number with `toString`, i.e. `Nat.repr`, whose digit
list we characterize via a clean recursion to prove that ids are injective
in the (repository name, number) pair. -/

theorem toDigitsCore_eq_natDigits :
    ∀ (fuel n : Nat) (ds : List Char), n < fuel →
      Nat.toDigitsCore 10 fuel n ds = natDigits n ++ ds := by
  intro fuel
  induction fuel with
  | zero => intro n ds h; omega
  | succ f ih =>
    intro n ds h
    rw [Nat.toDigitsCore]
    show (if n / 10 = 0 then Nat.digitChar (n % 10) :: ds
      else Nat.toDigitsCore 10 f (n / 10) (Nat.digitChar (n % 10) :: ds)) =
      natDigits n ++ ds
    by_cases h0 : n / 10 = 0
    · have h10 : n < 10 := by omega
      rw [if_pos h0, natDigits, dif_pos h10, Nat.mod_eq_of_lt h10]
      rfl
    · have h10 : ¬ n < 10 := by omega
      rw [if_neg h0, ih (n / 10) _ (by omega)]
      conv_rhs => rw [natDigits]
      rw [dif_neg h10, List.append_assoc]
      rfl

theorem toDigits_eq_natDigits (n : Nat) : Nat.toDigits 10 n = natDigits n := by
  have h := toDigitsCore_eq_natDigits (n + 1) n [] (Nat.lt_succ_self n)
  simpa [Nat.toDigits] using h

theorem digitChar_toNat : ∀ k, k < 10 → (Nat.digitChar k).toNat = 48 + k := by
  decide

theorem digitChar_ne_dash : ∀ k, k < 10 → Nat.digitChar k ≠ Char.ofNat 45 := by
  decide

theorem digitsVal_natDigits (n : Nat) : digitsVal (natDigits n) = n := by
  induction n using Nat.strong_induction_on with
  | _ n ih =>
    rw [natDigits]
    by_cases h : n < 10
    · rw [dif_pos h]
      have ht := digitChar_toNat n h
      simp [digitsVal, ht]
    · rw [dif_neg h]
      have ihq := ih (n / 10) (Nat.div_lt_self (by omega) (by omega))
      have ht := digitChar_toNat (n % 10) (Nat.mod_lt n (by omega))
      rw [digitsVal, List.foldl_append]
      rw [digitsVal] at ihq
      simp only [List.foldl_cons, List.foldl_nil, ihq, ht]
      omega

theorem dash_not_mem_natDigits (n : Nat) : Char.ofNat 45 ∉ natDigits n := by
  induction n using Nat.strong_induction_on with
  | _ n ih =>
    rw [natDigits]
    by_cases h : n < 10
    · rw [dif_pos h]
      intro hm
      exact digitChar_ne_dash n h (List.mem_singleton.mp hm).symm
    · rw [dif_neg h]
      intro hm
      rcases List.mem_append.mp hm with hm1 | hm2
      · exact ih (n / 10) (Nat.div_lt_self (by omega) (by omega)) hm1
      · exact digitChar_ne_dash (n % 10) (Nat.mod_lt n (by omega))
          (List.mem_singleton.mp hm2).symm

/-- Splitting at the separator is unique when neither suffix contains it. -/
theorem append_sep_inj (c : Char) :
    ∀ (a b x y : List Char), c ∉ x → c ∉ y →
      a ++ c :: x = b ++ c :: y → a = b ∧ x = y := by
  intro a
  induction a with
  | nil =>
    intro b x y hx hy h
    cases b with
    | nil => simpa using h
    | cons d b2 =>
      simp only [List.nil_append, List.cons_append, List.cons.injEq] at h
      exact absurd (h.2 ▸ List.mem_append_right b2 (List.mem_cons_self _ _)) hx
  | cons d a2 ih =>
    intro b x y hx hy h
    cases b with
    | nil =>
      simp only [List.nil_append, List.cons_append, List.cons.injEq] at h
      exact absurd (h.2 ▸ List.mem_append_right a2 (List.mem_cons_self _ _)) hy
    | cons d2 b2 =>
      simp only [List.cons_append, List.cons.injEq] at h
      obtain ⟨rfl, h2⟩ := h
      obtain ⟨rfl, hxy⟩ := ih b2 x y hx hy h2
      exact ⟨rfl, hxy⟩

theorem repr_data (n : Nat) : (Nat.repr n).data = natDigits n := by
  rw [Nat.repr, toDigits_eq_natDigits]
  rfl

theorem natDigits_inj {n1 n2 : Nat} (h : natDigits n1 = natDigits n2) :
    n1 = n2 := by
  have := congrArg digitsVal h
  rwa [digitsVal_natDigits, digitsVal_natDigits] at this

/-- `mkId` is injective in the (repository name, number) pair: the number
part contains no dash, so the split at the last dash is unique. -/
theorem mkId_inj {r1 r2 : String} {n1 n2 : Nat} (h : mkId r1 n1 = mkId r2 n2) :
    r1 = r2 ∧ n1 = n2 := by
  have hdash : ("-" : String).data = [Char.ofNat 45] := rfl
  have hts : ∀ n : Nat, toString n = Nat.repr n := fun _ => rfl
  have hd := congrArg String.data h
  simp only [mkId, String.data_append, hts, repr_data, hdash,
    List.append_assoc, List.singleton_append] at hd
  obtain ⟨hr, hn⟩ := append_sep_inj (Char.ofNat 45) r1.data r2.data
    (natDigits n1) (natDigits n2) (dash_not_mem_natDigits n1)
    (dash_not_mem_natDigits n2) hd
  exact ⟨String.ext hr, natDigits_inj hn⟩

/-! ### Properties of the stable sort -/

theorem mem_insertByKey {key : PR → Nat} {x : PR} {l : List PR} {z : PR} :
    z ∈ insertByKey key x l ↔ z = x ∨ z ∈ l := by
  induction l with
  | nil => simp [insertByKey]
  | cons y ys ih =>
    rw [insertByKey]
    by_cases h : key y < key x
    · rw [if_pos h]
      simp only [List.mem_cons, ih]
      tauto
    · rw [if_neg h]
      simp only [List.mem_cons]

theorem pairwise_insertByKey {key : PR → Nat} {x : PR} {l : List PR}
    (hl : List.Pairwise (fun a b => key a ≤ key b) l) :
    List.Pairwise (fun a b => key a ≤ key b) (insertByKey key x l) := by
  induction l with
  | nil => simp [insertByKey]
  | cons y ys ih =>
    rw [insertByKey]
    rcases List.pairwise_cons.mp hl with ⟨hy, hys⟩
    by_cases h : key y < key x
    · rw [if_pos h]
      refine List.pairwise_cons.mpr ⟨?_, ih hys⟩
      intro z hz
      rcases mem_insertByKey.mp hz with rfl | hz2
      · omega
      · exact hy z hz2
    · rw [if_neg h]
      refine List.pairwise_cons.mpr ⟨?_, hl⟩
      intro z hz
      rcases List.mem_cons.mp hz with rfl | hz2
      · omega
      · exact le_trans (by omega) (hy z hz2)

theorem pairwise_sortByKey (key : PR → Nat) (l : List PR) :
    List.Pairwise (fun a b => key a ≤ key b) (sortByKey key l) := by
  induction l with
  | nil => simp [sortByKey]
  | cons x xs ih =>
    rw [sortByKey]
    exact pairwise_insertByKey ih

theorem mem_sortByKey {key : PR → Nat} {l : List PR} {z : PR} :
    z ∈ sortByKey key l ↔ z ∈ l := by
  induction l with
  | nil => exact Iff.rfl
  | cons x xs ih =>
    rw [sortByKey, mem_insertByKey, ih]
    simp only [List.mem_cons]

theorem length_insertByKey (key : PR → Nat) (x : PR) (l : List PR) :
    (insertByKey key x l).length = l.length + 1 := by
  induction l with
  | nil => rfl
  | cons y ys ih =>
    rw [insertByKey]
    by_cases h : key y < key x
    · rw [if_pos h]
      simp [ih]
    · rw [if_neg h]
      rfl

theorem length_sortByKey (key : PR → Nat) (l : List PR) :
    (sortByKey key l).length = l.length := by
  induction l with
  | nil => rfl
  | cons x xs ih =>
    rw [sortByKey, length_insertByKey, ih]
    rfl

theorem filter_insertByKey (key : PR → Nat) (x : PR) (l : List PR) (p : PR → Bool)
    (hcompat : ∀ y, p y = true → p x = true → key y = key x) :
    (insertByKey key x l).filter p =
      if p x then x :: l.filter p else l.filter p := by
  induction l with
  | nil =>
    rw [insertByKey]
    by_cases hx : p x <;> simp [hx]
  | cons y ys ih =>
    rw [insertByKey]
    by_cases h : key y < key x
    · rw [if_pos h]
      by_cases hx : p x
      · have hy : ¬ p y = true := by
          intro hy2
          have := hcompat y hy2 hx
          omega
        simp [List.filter_cons, hy, ih, hx]
      · by_cases hy : p y <;> simp [List.filter_cons, hy, ih, hx]
    · rw [if_neg h]
      by_cases hx : p x <;> simp [List.filter_cons, hx]

theorem filter_sortByKey (key : PR → Nat) (p : PR → Bool) (l : List PR)
    (hcompat : ∀ a b, p a = true → p b = true → key a = key b) :
    (sortByKey key l).filter p = l.filter p := by
  induction l with
  | nil => rfl
  | cons x xs ih =>
    rw [sortByKey, filter_insertByKey key x _ p (fun y hy hx => hcompat y x hy hx),
      ih]
    by_cases hx : p x <;> simp [List.filter_cons, hx]

theorem jsOrZero_eq (n : Nat) : jsOrZero n = n := by
  by_cases h : n = 0 <;> simp [jsOrZero, h]

/-- The two variants' comparators induce the same sort. -/
theorem sortRecords_eq_untyped : sortRecords = sortRecordsUntyped := by
  funext l
  rw [sortRecords, sortRecordsUntyped]
  congr 1
  funext r
  exact jsOrZero_eq r.approvals

/-! ### Characterization of the fetch/aggregate phase -/

/-- Every record produced by the inner loop comes from some pull request
in the processed list, with the approval count of exactly the review list
the oracle returned for it. -/
theorem mem_processPRs {up : Upstream} {org repoName : String}
    {prs : List GitHubPullRequest} {log : List Req} {recs : List PR} {rec : PR}
    (h : processPRs up org repoName prs = (log, .ok recs)) (hrec : rec ∈ recs) :
    ∃ pr ∈ prs, ∃ reviews, up.reviews repoName pr.number = .ok reviews ∧
      rec = mkRecord org repoName pr (approvalCount reviews) := by
  induction prs generalizing log recs with
  | nil =>
    rw [processPRs] at h
    injection h with h1 h2
    injection h2 with h3
    subst h3
    exact absurd hrec (List.not_mem_nil _)
  | cons pr rest ih =>
    rw [processPRs] at h
    cases hrev : up.reviews repoName pr.number with
    | error e =>
      rw [hrev] at h
      injection h with h1 h2
      exact absurd h2 (by simp)
    | ok reviews =>
      rw [hrev] at h
      rcases hpr : processPRs up org repoName rest with ⟨log2, res2⟩
      rw [hpr] at h
      injection h with h1 h2
      cases res2 with
      | error e => exact absurd h2 (by simp [Except.map])
      | ok recs2 =>
        simp only [Except.map] at h2
        injection h2 with h3
        subst h3
        rcases List.mem_cons.mp hrec with rfl | hmem
        · exact ⟨pr, List.mem_cons_self _ _, reviews, hrev, rfl⟩
        · obtain ⟨pr2, hpr2, reviews2, hrev2, heq⟩ := ih hpr hmem
          exact ⟨pr2, List.mem_cons_of_mem _ hpr2, reviews2, hrev2, heq⟩

/-- Every record produced by the outer loop comes from a non-draft pull
request of some repository in the list. -/
theorem mem_processRepos {up : Upstream} {org : String} {repos : List Repo}
    {log : List Req} {recs : List PR} {rec : PR}
    (h : processRepos up org repos = (log, .ok recs)) (hrec : rec ∈ recs) :
    ∃ repo ∈ repos, ∃ pulls, up.pulls repo.name = .ok pulls ∧
      ∃ pr ∈ pulls, pr.draft = false ∧
        ∃ reviews, up.reviews repo.name pr.number = .ok reviews ∧
          rec = mkRecord org repo.name pr (approvalCount reviews) := by
  induction repos generalizing log recs with
  | nil =>
    rw [processRepos] at h
    injection h with h1 h2
    injection h2 with h3
    subst h3
    exact absurd hrec (List.not_mem_nil _)
  | cons repo rest ih =>
    rw [processRepos] at h
    cases hpl : up.pulls repo.name with
    | error e =>
      rw [hpl] at h
      injection h with h1 h2
      exact absurd h2 (by simp)
    | ok pulls =>
      simp only [hpl] at h
      by_cases hemp : pulls.isEmpty
      · rw [if_pos hemp] at h
        rcases hrr : processRepos up org rest with ⟨log2, res2⟩
        rw [hrr] at h
        injection h with h1 h2
        subst h2
        obtain ⟨repo2, hrepo2, rest2⟩ := ih hrr hrec
        exact ⟨repo2, List.mem_cons_of_mem _ hrepo2, rest2⟩
      · rw [if_neg hemp] at h
        rcases hp1 : processPRs up org repo.name (pulls.filter (fun p => !p.draft))
          with ⟨log1, res1⟩
        rw [hp1] at h
        cases res1 with
        | error e =>
          injection h with h1 h2
          exact absurd h2 (by simp)
        | ok recs1 =>
          rcases hrr : processRepos up org rest with ⟨log2, res2⟩
          rw [hrr] at h
          injection h with h1 h2
          cases res2 with
          | error e => exact absurd h2 (by simp [Except.map])
          | ok recs2 =>
            simp only [Except.map] at h2
            injection h2 with h3
            subst h3
            rcases List.mem_append.mp hrec with hmem | hmem
            · obtain ⟨pr, hprmem, reviews, hrev, heq⟩ := mem_processPRs hp1 hmem
              rcases List.mem_filter.mp hprmem with ⟨hprin, hnd⟩
              refine ⟨repo, List.mem_cons_self _ _, pulls, hpl, pr, hprin, ?_,
                reviews, hrev, heq⟩
              simpa using hnd
            · obtain ⟨repo2, hrepo2, rest2⟩ := ih hrr hmem
              exact ⟨repo2, List.mem_cons_of_mem _ hrepo2, rest2⟩

/-- A review-list request issued by the inner loop targets this
repository and the number of some pull request in the processed list. -/
theorem log_processPRs {up : Upstream} {org repoName : String}
    {prs : List GitHubPullRequest} {rn : String} {n : Nat}
    (h : Req.reviews rn n ∈ (processPRs up org repoName prs).1) :
    rn = repoName ∧ ∃ pr ∈ prs, pr.number = n := by
  induction prs with
  | nil =>
    rw [processPRs] at h
    exact absurd h (List.not_mem_nil _)
  | cons pr rest ih =>
    rw [processPRs] at h
    cases hrev : up.reviews repoName pr.number with
    | error e =>
      rw [hrev] at h
      have heq := List.mem_singleton.mp h
      injection heq with h1 h2
      exact ⟨h1, pr, List.mem_cons_self _ _, h2.symm⟩
    | ok reviews =>
      rw [hrev] at h
      rcases hpr : processPRs up org repoName rest with ⟨log2, res2⟩
      rw [hpr] at h
      rcases List.mem_cons.mp h with heq | hmem
      · injection heq with h1 h2
        exact ⟨h1, pr, List.mem_cons_self _ _, h2.symm⟩
      · rw [hpr] at ih
        obtain ⟨h1, pr2, hpr2, h2⟩ := ih hmem
        exact ⟨h1, pr2, List.mem_cons_of_mem _ hpr2, h2⟩

/-- A review-list request issued by the outer loop targets a non-draft
pull request of a listed repository; in particular the draft filter runs
before any review fetch. -/
theorem log_processRepos {up : Upstream} {org : String} {repos : List Repo}
    {rn : String} {n : Nat}
    (h : Req.reviews rn n ∈ (processRepos up org repos).1) :
    ∃ repo ∈ repos, repo.name = rn ∧ ∃ pulls, up.pulls repo.name = .ok pulls ∧
      ∃ pr ∈ pulls, pr.draft = false ∧ pr.number = n := by
  induction repos with
  | nil =>
    rw [processRepos] at h
    exact absurd h (List.not_mem_nil _)
  | cons repo rest ih =>
    rw [processRepos] at h
    cases hpl : up.pulls repo.name with
    | error e =>
      rw [hpl] at h
      exact Req.noConfusion (List.mem_singleton.mp h)
    | ok pulls =>
      simp only [hpl] at h
      by_cases hemp : pulls.isEmpty
      · rw [if_pos hemp] at h
        rcases hrr : processRepos up org rest with ⟨log2, res2⟩
        rw [hrr] at h
        rcases List.mem_cons.mp h with heq | hmem
        · exact Req.noConfusion heq
        · rw [hrr] at ih
          obtain ⟨repo2, hrepo2, rest2⟩ := ih hmem
          exact ⟨repo2, List.mem_cons_of_mem _ hrepo2, rest2⟩
      · rw [if_neg hemp] at h
        rcases hp1 : processPRs up org repo.name (pulls.filter (fun p => !p.draft))
          with ⟨log1, res1⟩
        rw [hp1] at h
        have hfromPRs : Req.reviews rn n ∈ log1 →
            ∃ repo2 ∈ repo :: rest, repo2.name = rn ∧
              ∃ pulls2, up.pulls repo2.name = .ok pulls2 ∧
                ∃ pr ∈ pulls2, pr.draft = false ∧ pr.number = n := by
          intro hmem
          have hlog := log_processPRs (by rw [hp1]; exact hmem)
          obtain ⟨h1, pr, hprmem, h2⟩ := hlog
          rcases List.mem_filter.mp hprmem with ⟨hprin, hnd⟩
          exact ⟨repo, List.mem_cons_self _ _, h1.symm, pulls, hpl, pr, hprin,
            by simpa using hnd, h2⟩
        cases res1 with
        | error e =>
          rcases List.mem_cons.mp h with heq | hmem
          · exact Req.noConfusion heq
          · exact hfromPRs hmem
        | ok recs1 =>
          rcases hrr : processRepos up org rest with ⟨log2, res2⟩
          rw [hrr] at h
          rcases List.mem_cons.mp h with heq | hmem
          · exact Req.noConfusion heq
          · rcases List.mem_append.mp hmem with hmem1 | hmem2
            · exact hfromPRs hmem1
            · rw [hrr] at ih
              obtain ⟨repo2, hrepo2, rest2⟩ := ih hmem2
              exact ⟨repo2, List.mem_cons_of_mem _ hrepo2, rest2⟩

/-! ### Properties of the merge-upsert store -/

theorem setDocMerge_self (col : Collection) (key : String) (d : Doc) :
    setDocMerge col key d key = some (mergeDoc (col key) d) := by
  rw [setDocMerge]
  simp

theorem setDocMerge_other (col : Collection) (key k : String) (d : Doc)
    (h : k ≠ key) : setDocMerge col key d k = col k := by
  rw [setDocMerge]
  simp [h]

theorem upsertRecords_cons (col : Collection) (r : PR) (rs : List PR) :
    upsertRecords col (r :: rs) =
      upsertRecords (setDocMerge col r.id (recordDoc r)) rs := rfl

/-- What one key of the collection holds after the whole record batch:
the prior document merged, in order, with the records keyed there. -/
theorem upsertRecords_get (col : Collection) (recs : List PR) (k : String) :
    upsertRecords col recs k =
      (recs.filter (fun r => r.id == k)).foldl mergeStep (col k) := by
  induction recs generalizing col with
  | nil => rfl
  | cons r rs ih =>
    rw [upsertRecords_cons, ih, List.filter_cons]
    by_cases hid : r.id = k
    · have hb : (r.id == k) = true := by simp [hid]
      rw [if_pos hb, List.foldl_cons]
      subst hid
      rw [setDocMerge_self]
      rfl
    · have hb : ¬ (r.id == k) = true := by simp [hid]
      rw [if_neg hb, setDocMerge_other col r.id k _ (fun he => hid he.symm)]

/-- A key no batch record is keyed under is untouched by the batch. -/
theorem upsertRecords_not_mem (col : Collection) (recs : List PR) (k : String)
    (h : ∀ r ∈ recs, r.id ≠ k) : upsertRecords col recs k = col k := by
  rw [upsertRecords_get]
  have : recs.filter (fun r => r.id == k) = [] := by
    rw [List.filter_eq_nil_iff]
    intro r hr
    simp [h r hr]
  rw [this]
  rfl

theorem getF_foldl_mergeStep (l : List PR) (a : Option Doc) (f : String) :
    getF (l.foldl mergeStep a) f = l.foldl (overrideF f) (getF a f) := by
  induction l generalizing a with
  | nil => rfl
  | cons r rs ih =>
    rw [List.foldl_cons, List.foldl_cons, ih]
    rfl

theorem foldl_mergeStep_some (l : List PR) (d : Doc) :
    ∃ d2, l.foldl mergeStep (some d) = some d2 := by
  induction l generalizing d with
  | nil => exact ⟨d, rfl⟩
  | cons r rs ih =>
    rw [List.foldl_cons]
    exact ih _

theorem foldl_overrideF_cases (f : String) (l : List PR) :
    ∀ (a b : Option FieldVal),
      l.foldl (overrideF f) a = l.foldl (overrideF f) b ∨
        (l.foldl (overrideF f) a = a ∧ l.foldl (overrideF f) b = b) := by
  induction l with
  | nil => exact fun a b => Or.inr ⟨rfl, rfl⟩
  | cons r rs ih =>
    intro a b
    rw [List.foldl_cons, List.foldl_cons]
    cases hr : recordDoc r f with
    | some v =>
      left
      rw [overrideF, overrideF, hr]
    | none =>
      rw [overrideF, overrideF, hr]
      exact ih a b

/-- Re-applying the same record batch to a key's document changes
nothing: every field already holds its final value. -/
theorem foldl_mergeStep_idem (l : List PR) (a : Option Doc) :
    l.foldl mergeStep (l.foldl mergeStep a) = l.foldl mergeStep a := by
  cases l with
  | nil => rfl
  | cons r rs =>
    obtain ⟨d1, hd1⟩ : ∃ d1, (r :: rs).foldl mergeStep a = some d1 := by
      rw [List.foldl_cons]
      exact foldl_mergeStep_some rs _
    obtain ⟨d2, hd2⟩ : ∃ d2, (r :: rs).foldl mergeStep (some d1) = some d2 := by
      rw [List.foldl_cons]
      exact foldl_mergeStep_some rs _
    rw [hd1, hd2]
    congr 1
    funext f
    have e2 : d2 f = (r :: rs).foldl (overrideF f) (getF (some d1) f) := by
      rw [← getF_foldl_mergeStep, hd2]
      rfl
    have e1 : d1 f = (r :: rs).foldl (overrideF f) (getF a f) := by
      rw [← getF_foldl_mergeStep, hd1]
      rfl
    have e3 : getF (some d1) f = d1 f := rfl
    show d2 f = d1 f
    rw [e2, e3, e1]
    rcases foldl_overrideF_cases f (r :: rs)
      ((r :: rs).foldl (overrideF f) (getF a f)) (getF a f) with hc | hc
    · exact hc
    · exact hc.1

/-- Re-applying the same record batch to the collection is a no-op. -/
theorem upsertRecords_idem (col : Collection) (recs : List PR) :
    upsertRecords (upsertRecords col recs) recs = upsertRecords col recs := by
  funext k
  rw [upsertRecords_get, upsertRecords_get]
  exact foldl_mergeStep_idem _ _

/-! ### Bridge lemmas about one whole run -/

theorem GET_err {up : Upstream} {org now : String} {store : Store}
    {log : List Req} {e : String}
    (h : fetchAll up org = (log, .error e)) :
    GET up org now store = ⟨⟨false, none, some e, 500⟩, store, log, []⟩ := by
  simp only [GET, runWith, h]

theorem GET_ok {up : Upstream} {org now : String} {store : Store}
    {log : List Req} {recs : List PR}
    (h : fetchAll up org = (log, .ok recs)) :
    GET up org now store = ⟨⟨true, some (sortRecords recs).length, none, 200⟩,
      ⟨upsertRecords store.prs (sortRecords recs),
        setDocMerge store.metadata "system"
          (metadataDoc now (sortRecords recs).length)⟩,
      log, sortRecords recs⟩ := by
  simp only [GET, runWith, h]

theorem GET_log (up : Upstream) (org now : String) (store : Store) :
    (GET up org now store).log = (fetchAll up org).1 := by
  rcases hf : fetchAll up org with ⟨log, res⟩
  cases res with
  | error e => rw [GET_err hf]
  | ok recs => rw [GET_ok hf]

theorem fetchAll_ok {up : Upstream} {org : String} {log : List Req}
    {recs : List PR} (h : fetchAll up org = (log, .ok recs)) :
    ∃ repos log2, up.repos = .ok repos ∧ log = .repos :: log2 ∧
      processRepos up org repos = (log2, .ok recs) := by
  rw [fetchAll] at h
  split at h
  next e heq =>
    injection h with h1 h2
    exact absurd h2 (by simp)
  next repos heq =>
    split at h
    next log2 res2 heq2 =>
      injection h with h1 h2
      subst h2
      exact ⟨repos, log2, heq, h1.symm, heq2⟩

/-- Every record a successful run produces and persists comes from a
non-draft pull request of a listed repository, normalized from exactly
the payloads the oracle returned. -/
theorem mem_records_GET {up : Upstream} {org now : String} {store : Store}
    {rec : PR} (hrec : rec ∈ (GET up org now store).records) :
    ∃ (repo : Repo) (pulls : List GitHubPullRequest)
      (pr : GitHubPullRequest) (reviews : List GitHubReview),
      up.pulls repo.name = .ok pulls ∧ pr ∈ pulls ∧ pr.draft = false ∧
      up.reviews repo.name pr.number = .ok reviews ∧
      rec = mkRecord org repo.name pr (approvalCount reviews) := by
  rcases hf : fetchAll up org with ⟨log, res⟩
  cases res with
  | error e =>
    rw [GET_err hf] at hrec
    exact absurd hrec (List.not_mem_nil _)
  | ok recs =>
    rw [GET_ok hf] at hrec
    have hmem : rec ∈ recs := by
      have := hrec
      rw [sortRecords] at this
      exact mem_sortByKey.mp this
    obtain ⟨repos, log2, hrep, hlog, hpr⟩ := fetchAll_ok hf
    obtain ⟨repo, hrepo, pulls, hpl, pr, hprm, hnd, reviews, hrev, heq⟩ :=
      mem_processRepos hpr hmem
    exact ⟨repo, pulls, pr, reviews, hpl, hprm, hnd, hrev, heq⟩

/-- The `lastRefreshCount` field after the step-5 metadata merge-write. -/
theorem metaCount_write (p m : Collection) (now : String) (n : Nat) :
    metaCount ⟨p, setDocMerge m "system" (metadataDoc now n)⟩ =
      some (.nat n) := by
  show (match setDocMerge m "system" (metadataDoc now n) "system" with
    | some d => d "lastRefreshCount"
    | none => none) = some (.nat n)
  rw [setDocMerge_self]
  rfl

/-! ### The claims -/

/-- C1: for every record a refresh produces, the `approvals` field equals
the number of entries in that pull request's review list whose `state` is
exactly the string "APPROVED" (case-sensitive exact match; other states
contribute zero; duplicate approvals each count, since the filter counts
entries, not reviewers). -/
theorem C1_approvals_count {up : Upstream} {org now : String} {store : Store}
    {rec : PR} (hrec : rec ∈ (GET up org now store).records) :
    ∃ (repoName : String) (prNumber : Nat) (reviews : List GitHubReview),
      up.reviews repoName prNumber = .ok reviews ∧
      rec.id = mkId repoName prNumber ∧
      rec.approvals = (reviews.filter (fun r => r.state == "APPROVED")).length := by
  obtain ⟨repo, pulls, pr, reviews, hpl, hprm, hnd, hrev, heq⟩ :=
    mem_records_GET hrec
  refine ⟨repo.name, pr.number, reviews, hrev, ?_, ?_⟩
  · rw [heq]
    rfl
  · rw [heq]
    rfl

/-- C1 witness: scenario D — review states APPROVED, COMMENTED, APPROVED
give a record with `approvals = 2`. -/
theorem C1_witness :
    ∃ (repoName : String) (prNumber : Nat) (reviews : List GitHubReview),
      upD.reviews repoName prNumber = .ok reviews ∧
      (mkRecord "org" "alpha" prOpen 2).id = mkId repoName prNumber ∧
      (mkRecord "org" "alpha" prOpen 2).approvals =
        (reviews.filter (fun r => r.state == "APPROVED")).length :=
  @C1_approvals_count upD "org" "t" emptyStore (mkRecord "org" "alpha" prOpen 2)
    (by decide)

/-- C4: distinct (repository name, pull-request number) pairs derive
distinct ids `repoName-number`: the decimal number part contains no dash,
so the split at the last dash is unique. -/
theorem C4_id_unique (r1 r2 : String) (n1 n2 : Nat)
    (h : (r1, n1) ≠ (r2, n2)) : mkId r1 n1 ≠ mkId r2 n2 := by
  intro he
  rcases mkId_inj he with ⟨hr, hn⟩
  exact h (by rw [hr, hn])

/-- C4 witness: repository names that already contain dashes and digits
still yield distinct ids. -/
theorem C4_witness :
    (("a-1", (2 : Nat)) ≠ ("a", (12 : Nat))) ∧ mkId "a-1" 2 ≠ mkId "a" 12 :=
  ⟨by decide, C4_id_unique "a-1" "a" 2 12 (by decide)⟩

/-- C5: if the fetch/aggregate phase fails at any source-API call, the
run returns `success: false` with status 500 and the store — both the
record collection and the metadata document — is exactly the prior
state, because the single write batch is only issued after all fetches
succeed. -/
theorem C5_failure_no_writes {up : Upstream} {org now : String} {store : Store}
    {log : List Req} {e : String}
    (h : fetchAll up org = (log, .error e)) :
    (GET up org now store).resp.success = false ∧
    (GET up org now store).resp.status = 500 ∧
    (GET up org now store).store = store := by
  rw [GET_err h]
  exact ⟨rfl, rfl, rfl⟩

/-- C5 witness: scenario E — the repository-list call fails; the store is
untouched. -/
theorem C5_witness :
    (GET upE "org" "t" emptyStore).resp.success = false ∧
    (GET upE "org" "t" emptyStore).resp.status = 500 ∧
    (GET upE "org" "t" emptyStore).store = emptyStore :=
  @C5_failure_no_writes upE "org" "t" emptyStore [.repos] "fetch failed" rfl

/-- C9: the typed route and the untyped variant are behaviourally
equivalent: on every oracle, configuration and prior store they return
the same response, issue the same requests, leave the same store, and
produce the same records. The only textual difference, the sort
comparator `(a.approvals || 0) - (b.approvals || 0)` versus
`a.approvals - b.approvals`, is extensionally the same ordering because
`approvals` is always a non-negative count and `0 || 0` is `0`. -/
theorem C9_variants_equivalent (up : Upstream) (org now : String) (store : Store) :
    GETUntyped up org now store = GET up org now store := by
  rw [GETUntyped, GET, sortRecords_eq_untyped]

/-- C10: every document the refresh writes into the record collection is
stored under a key equal to the `id` field inside the written document
body. -/
theorem C10_key_eq_id_field {up : Upstream} {org now : String} {store : Store}
    {p : String × Doc} (hp : p ∈ writeOps (GET up org now store).records) :
    p.2 "id" = some (.str p.1) := by
  rw [writeOps] at hp
  obtain ⟨r, hr, heq⟩ := List.mem_map.mp hp
  rw [← heq]
  rfl

/-- C10 witness: the one write of scenario D stores the document under
key `alpha-1` and its body's `id` field holds the same string. -/
theorem C10_witness :
    ((mkRecord "org" "alpha" prOpen 2).id,
        recordDoc (mkRecord "org" "alpha" prOpen 2)).2 "id" =
      some (.str ((mkRecord "org" "alpha" prOpen 2).id,
        recordDoc (mkRecord "org" "alpha" prOpen 2)).1) :=
  @C10_key_eq_id_field upD "org" "t" emptyStore
    ((mkRecord "org" "alpha" prOpen 2).id,
      recordDoc (mkRecord "org" "alpha" prOpen 2))
    (List.mem_singleton.mpr rfl)

/-- C2: for a draft pull request in a repository's pull list (pull-request
numbers being unique within a repository's list, as the source system
guarantees), the refresh produces no record with that pull request's id
and issues no review-list request for it: the draft filter runs before
any review fetch. -/
theorem C2_draft_excluded {up : Upstream} {org now : String} {store : Store}
    {rn : String} {pulls : List GitHubPullRequest} {pr : GitHubPullRequest}
    (hp : up.pulls rn = .ok pulls) (hmem : pr ∈ pulls) (hdraft : pr.draft = true)
    (hnodup : (pulls.map (fun p => p.number)).Nodup) :
    (∀ rec ∈ (GET up org now store).records, rec.id ≠ mkId rn pr.number) ∧
    Req.reviews rn pr.number ∉ (GET up org now store).log := by
  constructor
  · intro rec hrec heq
    obtain ⟨repo, pulls2, pr2, reviews, hpl2, hmem2, hnd2, hrev2, hrec2⟩ :=
      mem_records_GET hrec
    rw [hrec2] at heq
    have hid : mkId repo.name pr2.number = mkId rn pr.number := heq
    rcases mkId_inj hid with ⟨hname, hnum⟩
    rw [hname, hp] at hpl2
    injection hpl2 with hpeq
    subst hpeq
    have hpp : pr2 = pr := List.inj_on_of_nodup_map hnodup hmem2 hmem hnum
    rw [hpp, hdraft] at hnd2
    exact Bool.noConfusion hnd2
  · rw [GET_log]
    cases hr : up.repos with
    | error e =>
      simp only [fetchAll, hr]
      intro hmem2
      exact Req.noConfusion (List.mem_singleton.mp hmem2)
    | ok repos =>
      rcases hpr : processRepos up org repos with ⟨log2, res2⟩
      simp only [fetchAll, hr, hpr]
      intro hmem2
      rcases List.mem_cons.mp hmem2 with he | hin
      · exact Req.noConfusion he
      · have hin2 : Req.reviews rn pr.number ∈ (processRepos up org repos).1 := by
          rw [hpr]
          exact hin
        obtain ⟨repo, hrepo, hname, pulls2, hpl2, pr2, hmem3, hnd3, hnum3⟩ :=
          log_processRepos hin2
        rw [hname, hp] at hpl2
        injection hpl2 with hpeq
        subst hpeq
        have hpp : pr2 = pr := List.inj_on_of_nodup_map hnodup hmem3 hmem hnum3
        rw [hpp, hdraft] at hnd3
        exact Bool.noConfusion hnd3

/-- C2 witness: scenario C — a draft pull request produces no record with
its id and triggers no review-list request, even while the open pull
request in the same repository does produce one. -/
theorem C2_witness :
    (∀ rec ∈ (GET upC "org" "t" emptyStore).records,
        rec.id ≠ mkId "alpha" prDraft.number) ∧
      Req.reviews "alpha" prDraft.number ∉ (GET upC "org" "t" emptyStore).log :=
  @C2_draft_excluded upC "org" "t" emptyStore "alpha" [prDraft, prOpen] prDraft
    rfl (by decide) rfl (by decide)

/-- C3: the produced record sequence is non-decreasing in `approvals`,
and the sort is stable: restricting the output to any fixed `approvals`
value gives exactly the input-encounter-order sublist (repository list
order, then pull-request list order within a repository — which is the
order of the unsorted `allPRs`). -/
theorem C3_sorted_stable {up : Upstream} {org now : String} {store : Store}
    {log : List Req} {recs : List PR}
    (h : fetchAll up org = (log, .ok recs)) :
    List.Pairwise (fun a b => a.approvals ≤ b.approvals)
        (GET up org now store).records ∧
      ∀ k, ((GET up org now store).records).filter (fun r => r.approvals == k) =
        recs.filter (fun r => r.approvals == k) := by
  rw [GET_ok h]
  constructor
  · show List.Pairwise _ (sortRecords recs)
    rw [sortRecords]
    refine List.Pairwise.imp ?_
      (pairwise_sortByKey (fun r => jsOrZero r.approvals) recs)
    intro a b hab
    rwa [jsOrZero_eq, jsOrZero_eq] at hab
  · intro k
    show (sortRecords recs).filter _ = _
    rw [sortRecords]
    refine filter_sortByKey _ _ _ ?_
    intro a b ha hb
    have ha2 : a.approvals = k := by simpa using ha
    have hb2 : b.approvals = k := by simpa using hb
    rw [jsOrZero_eq, jsOrZero_eq, ha2, hb2]

/-- C3 witness: scenario D's single-record output is trivially sorted and
stable against its encounter order. -/
theorem C3_witness :
    List.Pairwise (fun a b => a.approvals ≤ b.approvals)
        (GET upD "org" "t" emptyStore).records ∧
      ∀ k, ((GET upD "org" "t" emptyStore).records).filter
          (fun r => r.approvals == k) =
        [mkRecord "org" "alpha" prOpen 2].filter (fun r => r.approvals == k) :=
  @C3_sorted_stable upD "org" "t" emptyStore
    [.repos, .pulls "alpha", .reviews "alpha" 1]
    [mkRecord "org" "alpha" prOpen 2] rfl

/-- C6: with zero repositories the refresh succeeds with `count = 0`,
writes nothing to the record collection, and still merge-writes the
singleton metadata document with `lastRefreshCount: 0` and the run's
timestamp. -/
theorem C6_zero_repos {up : Upstream} {org now : String} {store : Store}
    (h : up.repos = .ok []) :
    (GET up org now store).resp = ⟨true, some 0, none, 200⟩ ∧
    (GET up org now store).store.prs = store.prs ∧
    ∃ d, (GET up org now store).store.metadata "system" = some d ∧
      d "lastRefreshCount" = some (.nat 0) ∧
      d "lastRefresh" = some (.str now) := by
  have hf : fetchAll up org = ([.repos], .ok []) := by
    rw [fetchAll, h]
    rfl
  rw [GET_ok hf]
  refine ⟨rfl, rfl,
    mergeDoc (store.metadata "system") (metadataDoc now 0), ?_, rfl, rfl⟩
  show setDocMerge store.metadata "system"
    (metadataDoc now (sortRecords []).length) "system" = _
  rw [setDocMerge_self]
  rfl

/-- C6 witness: scenario A. -/
theorem C6_witness :
    (GET upA "org" "t" emptyStore).resp = ⟨true, some 0, none, 200⟩ ∧
    (GET upA "org" "t" emptyStore).store.prs = emptyStore.prs ∧
    ∃ d, (GET upA "org" "t" emptyStore).store.metadata "system" = some d ∧
      d "lastRefreshCount" = some (.nat 0) ∧
      d "lastRefresh" = some (.str "t") :=
  @C6_zero_repos upA "org" "t" emptyStore rfl

/-- C7: against an unchanged upstream, a second refresh produces the same
record sequence (same ids and field values), reports the same count, and
leaves the record collection exactly as the first run left it; after each
run the metadata document's `lastRefreshCount` equals the number of
records produced. -/
theorem C7_idempotent {up : Upstream} {org now1 now2 : String} {store0 : Store}
    {log : List Req} {recs : List PR}
    (h : fetchAll up org = (log, .ok recs)) :
    (GET up org now1 store0).records = sortRecords recs ∧
    (GET up org now2 (GET up org now1 store0).store).records = sortRecords recs ∧
    (GET up org now1 store0).resp.count = some recs.length ∧
    (GET up org now2 (GET up org now1 store0).store).resp.count =
      some recs.length ∧
    (GET up org now2 (GET up org now1 store0).store).store.prs =
      (GET up org now1 store0).store.prs ∧
    metaCount (GET up org now1 store0).store = some (.nat recs.length) ∧
    metaCount (GET up org now2 (GET up org now1 store0).store).store =
      some (.nat recs.length) := by
  have hlen : (sortRecords recs).length = recs.length := by
    rw [sortRecords, length_sortByKey]
  rw [GET_ok h, GET_ok h]
  refine ⟨rfl, rfl, ?_, ?_, ?_, ?_, ?_⟩
  · rw [hlen]
  · rw [hlen]
  · exact upsertRecords_idem _ _
  · rw [metaCount_write, hlen]
  · rw [metaCount_write, hlen]

/-- C7 witness: scenario D run twice in succession. -/
theorem C7_witness :
    (GET upD "org" "t1" emptyStore).records =
      sortRecords [mkRecord "org" "alpha" prOpen 2] ∧
    (GET upD "org" "t2" (GET upD "org" "t1" emptyStore).store).records =
      sortRecords [mkRecord "org" "alpha" prOpen 2] ∧
    (GET upD "org" "t1" emptyStore).resp.count =
      some [mkRecord "org" "alpha" prOpen 2].length ∧
    (GET upD "org" "t2" (GET upD "org" "t1" emptyStore).store).resp.count =
      some [mkRecord "org" "alpha" prOpen 2].length ∧
    (GET upD "org" "t2" (GET upD "org" "t1" emptyStore).store).store.prs =
      (GET upD "org" "t1" emptyStore).store.prs ∧
    metaCount (GET upD "org" "t1" emptyStore).store =
      some (.nat [mkRecord "org" "alpha" prOpen 2].length) ∧
    metaCount
        (GET upD "org" "t2" (GET upD "org" "t1" emptyStore).store).store =
      some (.nat [mkRecord "org" "alpha" prOpen 2].length) :=
  @C7_idempotent upD "org" "t1" "t2" emptyStore
    [.repos, .pulls "alpha", .reviews "alpha" 1]
    [mkRecord "org" "alpha" prOpen 2] rfl

/-- C8: record upserts use merge semantics — for the (unique) batch
record keyed at an id, every field present in the record overwrites the
matching field of any prior document under that key, and every field
absent from the record survives from the prior document unchanged. -/
theorem C8_merge_semantics (col : Collection) (recs : List PR) (r : PR)
    (huniq : recs.filter (fun r2 => r2.id == r.id) = [r]) :
    ∃ d, upsertRecords col recs r.id = some d ∧
      (∀ f v, recordDoc r f = some v → d f = some v) ∧
      (∀ f, recordDoc r f = none → d f = getF (col r.id) f) := by
  rw [upsertRecords_get, huniq]
  refine ⟨mergeDoc (col r.id) (recordDoc r), rfl, ?_, ?_⟩
  · intro f v hv
    show mergeDoc (col r.id) (recordDoc r) f = some v
    simp only [mergeDoc]
    rw [hv]
  · intro f hv
    show mergeDoc (col r.id) (recordDoc r) f = getF (col r.id) f
    simp only [mergeDoc]
    rw [hv]
    rfl

/-- C8 witness: upserting scenario D's record over a prior document under
the same key overwrites `title` but leaves the unrelated `extra` field in
place. -/
theorem C8_witness :
    ∃ d, upsertRecords colOld [mkRecord "org" "alpha" prOpen 2]
        (mkRecord "org" "alpha" prOpen 2).id = some d ∧
      (∀ f v, recordDoc (mkRecord "org" "alpha" prOpen 2) f = some v →
        d f = some v) ∧
      (∀ f, recordDoc (mkRecord "org" "alpha" prOpen 2) f = none →
        d f = getF (colOld (mkRecord "org" "alpha" prOpen 2).id) f) :=
  C8_merge_semantics colOld [mkRecord "org" "alpha" prOpen 2]
    (mkRecord "org" "alpha" prOpen 2) (by decide)

end PrReview
